import Mathlib

/-!
Shallow embedding of the `fifo-ttl-cache` package (class `FIFOCache` in
`src/fifo-ttl-cache.ts`, compiled build `dist/fifo-ttl-cache.js`).

The JavaScript `Map<K, ValueHolder<V>>` is modelled as an association list in
insertion order (oldest first), which is exactly the iteration-order guarantee
the source relies on ("The Map object holds key-value pairs and remembers the
original insertion order of the keys").  JavaScript numbers (timestamps,
`_capacity`, `_ttlMs`) are modelled as rationals, so that the constructor's
`Math.floor`-based validation of non-integer inputs is expressible.  Every
call to `Date.now()` becomes an explicit `now` argument.
-/

namespace FifoTtlCache

/-- Embeds `interface ValueHolder<V> { value: V; expirationTimestamp: number }`. -/
structure ValueHolder (V : Type) where
  value : V
  expirationTimestamp : ℚ
deriving DecidableEq, Repr

/-- The backing store of the JS `Map<K, ValueHolder<V>>`: key/holder pairs in
insertion order, oldest first. -/
abbrev EntryList (K V : Type) := List (K × ValueHolder V)

/-- Embeds `Map.prototype.get`: the holder stored under `key`, if any. -/
def jsMapGet [DecidableEq K] (m : EntryList K V) (key : K) : Option (ValueHolder V) :=
  (m.find? (fun p => decide (p.1 = key))).map Prod.snd

/-- Embeds `Map.prototype.has`: whether `key` is stored (no staleness involved). -/
def jsMapHas [DecidableEq K] (m : EntryList K V) (key : K) : Bool :=
  m.any (fun p => decide (p.1 = key))

/-- Embeds `Map.prototype.delete`, its effect on the store: remove the entry for `key`
(keys of a JS `Map` are unique, so this removes at most one entry from any
reachable store), preserving the insertion order of all other entries. -/
def jsMapDelete [DecidableEq K] (m : EntryList K V) (key : K) : EntryList K V :=
  m.filter (fun p => !decide (p.1 = key))

/-- Embeds `Map.prototype.set`, its effect on the store: overwrite in place when the key
is present, otherwise append at the youngest end. -/
def jsMapSet [DecidableEq K] (m : EntryList K V) (key : K) (holder : ValueHolder V) :
    EntryList K V :=
  if jsMapHas m key then
    m.map (fun p => if p.1 = key then (key, holder) else p)
  else
    m ++ [(key, holder)]

/-- Embeds `class FIFOCache<K,V>`: the validated configuration fields and the
private `_cache` map. -/
structure FIFOCache (K V : Type) where
  _capacity : ℚ
  _ttlMs : ℚ
  _cache : EntryList K V
deriving DecidableEq, Repr

/-- Embeds `function isNaturalNumber(num)`:
`const floored = Math.floor(num); return floored >= 1 && floored === num;`. -/
def isNaturalNumber (num : ℚ) : Bool :=
  let floored : ℤ := ⌊num⌋
  decide (floored ≥ 1) && decide ((floored : ℚ) = num)

/-- Embeds the `FIFOCache` constructor: validates `_capacity` and `_ttlMs`
with `isNaturalNumber`, throwing (modelled as `Except.error`) on the first
violation, and otherwise yields the instance with an empty `_cache`. -/
def FIFOCache.construct (K V : Type) (capacity ttlMs : ℚ) :
    Except String (FIFOCache K V) :=
  if !isNaturalNumber capacity then
    Except.error "Failed to instantiate FIFOCache: _capacity must be a natural number"
  else if !isNaturalNumber ttlMs then
    Except.error "Failed to instantiate FIFOCache: _ttlMs must be a natural number"
  else
    Except.ok { _capacity := capacity, _ttlMs := ttlMs, _cache := [] }

/-- Embeds the getter `size`: `return this._cache.size`. -/
def FIFOCache.size (c : FIFOCache K V) : ℕ :=
  c._cache.length

/-- Embeds the getter `isEmpty`: `return this._cache.size === 0`. -/
def FIFOCache.isEmpty (c : FIFOCache K V) : Bool :=
  decide (c._cache.length = 0)

/-- Embeds `set(key, value)`: computes `expirationTimestamp = Date.now() + this._ttlMs`
(`Date.now()` is the explicit `now` argument), deletes any prior entry for the
key, inserts the fresh holder, and if the size now exceeds `_capacity` deletes
the oldest key (`this._cache.keys().next().value`, i.e. the head of the
insertion order; `undefined` when the map is empty, in which case the JS
`delete` is a no-op). -/
def FIFOCache.set [DecidableEq K] (c : FIFOCache K V) (now : ℚ) (key : K) (value : V) :
    FIFOCache K V :=
  let expirationTimestamp := now + c._ttlMs
  let afterDelete := jsMapDelete c._cache key
  let afterInsert := jsMapSet afterDelete key ⟨value, expirationTimestamp⟩
  if (afterInsert.length : ℚ) > c._capacity then
    match afterInsert.head? with
    | some oldest => { c with _cache := jsMapDelete afterInsert oldest.1 }
    | none => { c with _cache := afterInsert }
  else
    { c with _cache := afterInsert }

/-- Embeds the private helper `_getExpiringEntry(key)` of the compiled build:
returns the stored entry when present and not expired; when present but
`Date.now() >= expirationTimestamp`, deletes the entry and returns `undefined`;
when absent, returns `undefined`.  The pair also carries the resulting cache
state.  (The `get` method of `src/fifo-ttl-cache.ts` inlines exactly this
logic.) -/
def FIFOCache.getExpiringEntry [DecidableEq K] (c : FIFOCache K V) (now : ℚ) (key : K) :
    FIFOCache K V × Option (ValueHolder V) :=
  match jsMapGet c._cache key with
  | none => (c, none)
  | some entry =>
    if now ≥ entry.expirationTimestamp then
      ({ c with _cache := jsMapDelete c._cache key }, none)
    else
      (c, some entry)

/-- Embeds `get(key)`: `return this._getExpiringEntry(key)?.value`. -/
def FIFOCache.get [DecidableEq K] (c : FIFOCache K V) (now : ℚ) (key : K) :
    FIFOCache K V × Option V :=
  let r := c.getExpiringEntry now key
  (r.1, r.2.map ValueHolder.value)

/-- Embeds `has(key)`: `return !!this._getExpiringEntry(key)`. -/
def FIFOCache.has [DecidableEq K] (c : FIFOCache K V) (now : ℚ) (key : K) :
    FIFOCache K V × Bool :=
  let r := c.getExpiringEntry now key
  (r.1, r.2.isSome)

/-- Embeds `delete(key)`: `return this._cache.delete(key)` — unconditional
removal, returning whether the key was stored. -/
def FIFOCache.delete [DecidableEq K] (c : FIFOCache K V) (key : K) :
    FIFOCache K V × Bool :=
  ({ c with _cache := jsMapDelete c._cache key }, jsMapHas c._cache key)

/-- Embeds `clear()`: `this._cache.clear()`. -/
def FIFOCache.clear (c : FIFOCache K V) : FIFOCache K V :=
  { c with _cache := [] }

/-- One public mutating call on the cache, with the `Date.now()` reading of the
calls that consult the clock. -/
inductive CacheOp (K V : Type) where
  | set (now : ℚ) (key : K) (value : V)
  | get (now : ℚ) (key : K)
  | has (now : ℚ) (key : K)
  | delete (key : K)
  | clear
deriving DecidableEq, Repr

/-- The cache state after performing one operation. -/
def applyOp [DecidableEq K] (c : FIFOCache K V) : CacheOp K V → FIFOCache K V
  | .set now key value => c.set now key value
  | .get now key => (c.get now key).1
  | .has now key => (c.has now key).1
  | .delete key => (c.delete key).1
  | .clear => c.clear

/-- The cache state after performing a sequence of operations in order. -/
def applyOps [DecidableEq K] (c : FIFOCache K V) (ops : List (CacheOp K V)) : FIFOCache K V :=
  ops.foldl applyOp c

/-- The stored keys, in insertion order. -/
def storedKeys (c : FIFOCache K V) : List K :=
  c._cache.map Prod.fst

/-- Well-formedness: the stored keys are pairwise distinct, as JS `Map`
guarantees.  It holds for the empty map and is preserved by every operation. -/
def WF [DecidableEq K] (c : FIFOCache K V) : Prop :=
  (storedKeys c).Nodup

/-- Means that `q` is a positive integer in the sense of the specification. -/
def IsPositiveInteger (q : ℚ) : Prop :=
  ∃ n : ℕ, 1 ≤ n ∧ q = (n : ℚ)

/-- Appending a batch of `set` calls: each list element carries the
`Date.now()` reading, the key and the value of one call. -/
def setAll [DecidableEq K] (c : FIFOCache K V) (xs : List (ℚ × K × V)) : FIFOCache K V :=
  xs.foldl (fun acc x => acc.set x.1 x.2.1 x.2.2) c

/-- The entries that a batch of `set` calls creates, in call order. -/
def newEntries (ttlMs : ℚ) (xs : List (ℚ × K × V)) : EntryList K V :=
  xs.map (fun x => (x.2.1, ⟨x.2.2, x.1 + ttlMs⟩))

/-! ### Basic facts about the embedded `Map` operations -/

section MapLemmas

variable {K V : Type} [DecidableEq K]

theorem jsMapGet_cons (p : K × ValueHolder V) (m : EntryList K V) (key : K) :
    jsMapGet (p :: m) key = if p.1 = key then some p.2 else jsMapGet m key := by
  by_cases h : p.1 = key <;> simp [jsMapGet, List.find?_cons, h]

theorem jsMapDelete_cons (p : K × ValueHolder V) (m : EntryList K V) (key : K) :
    jsMapDelete (p :: m) key =
      if p.1 = key then jsMapDelete m key else p :: jsMapDelete m key := by
  by_cases h : p.1 = key <;> simp [jsMapDelete, List.filter_cons, h]

theorem jsMapHas_iff_mem (m : EntryList K V) (key : K) :
    jsMapHas m key = true ↔ key ∈ m.map Prod.fst := by
  simp [jsMapHas, List.any_eq_true, List.mem_map]

theorem jsMapHas_eq_false_iff (m : EntryList K V) (key : K) :
    jsMapHas m key = false ↔ key ∉ m.map Prod.fst := by
  rw [← jsMapHas_iff_mem m key]
  cases jsMapHas m key <;> simp

theorem jsMapGet_eq_none_of_not_mem {m : EntryList K V} {key : K}
    (h : key ∉ m.map Prod.fst) : jsMapGet m key = none := by
  simp only [jsMapGet, Option.map_eq_none', List.find?_eq_none, decide_eq_true_eq]
  intro p hp hpk
  exact h (List.mem_map.mpr ⟨p, hp, hpk⟩)

theorem jsMapDelete_of_not_mem {m : EntryList K V} {key : K}
    (h : key ∉ m.map Prod.fst) : jsMapDelete m key = m := by
  rw [jsMapDelete, List.filter_eq_self]
  intro p hp
  simp only [Bool.not_eq_eq_eq_not, Bool.not_true, decide_eq_false_iff_not]
  intro hpk
  exact h (List.mem_map.mpr ⟨p, hp, hpk⟩)

theorem not_mem_jsMapDelete_self (m : EntryList K V) (key : K) :
    key ∉ (jsMapDelete m key).map Prod.fst := by
  intro hmem
  rcases List.mem_map.mp hmem with ⟨p, hp, hpk⟩
  rcases List.mem_filter.mp hp with ⟨-, hkeep⟩
  simp only [Bool.not_eq_eq_eq_not, Bool.not_true, decide_eq_false_iff_not] at hkeep
  exact hkeep hpk

theorem jsMapHas_jsMapDelete_self (m : EntryList K V) (key : K) :
    jsMapHas (jsMapDelete m key) key = false :=
  (jsMapHas_eq_false_iff _ _).mpr (not_mem_jsMapDelete_self m key)

theorem jsMapGet_jsMapDelete_self (m : EntryList K V) (key : K) :
    jsMapGet (jsMapDelete m key) key = none :=
  jsMapGet_eq_none_of_not_mem (not_mem_jsMapDelete_self m key)

theorem jsMapGet_jsMapDelete_ne (m : EntryList K V) {k2 key : K} (h : k2 ≠ key) :
    jsMapGet (jsMapDelete m key) k2 = jsMapGet m k2 := by
  induction m with
  | nil => rfl
  | cons p rest ih =>
    rw [jsMapDelete_cons]
    by_cases hpk : p.1 = key
    · have hne2 : ¬ p.1 = k2 := fun hc => h (hc ▸ hpk)
      rw [if_pos hpk, ih, jsMapGet_cons, if_neg hne2]
    · rw [if_neg hpk, jsMapGet_cons, jsMapGet_cons, ih]

theorem length_jsMapDelete_le (m : EntryList K V) (key : K) :
    (jsMapDelete m key).length ≤ m.length :=
  List.length_filter_le _ m

theorem length_jsMapDelete_lt_of_mem {m : EntryList K V} {key : K}
    (h : key ∈ m.map Prod.fst) : (jsMapDelete m key).length < m.length := by
  rcases List.mem_map.mp h with ⟨p, hp, hpk⟩
  apply List.length_filter_lt_length_iff_exists.mpr
  exact ⟨p, hp, by simp [hpk]⟩

theorem length_jsMapDelete_nodup {m : EntryList K V} {key : K}
    (hnd : (m.map Prod.fst).Nodup) (h : key ∈ m.map Prod.fst) :
    (jsMapDelete m key).length + 1 = m.length := by
  induction m with
  | nil => cases h
  | cons p rest ih =>
    simp only [List.map_cons, List.nodup_cons] at hnd
    rw [jsMapDelete_cons]
    by_cases hpk : p.1 = key
    · have hrest : jsMapDelete rest key = rest :=
        jsMapDelete_of_not_mem (hpk ▸ hnd.1)
      rw [if_pos hpk, hrest, List.length_cons]
    · have hkrest : key ∈ rest.map Prod.fst := by
        rcases List.mem_map.mp h with ⟨q, hq, hqk⟩
        rcases List.mem_cons.mp hq with hq1 | hq2
        · exact absurd (hq1 ▸ hqk) hpk
        · exact List.mem_map.mpr ⟨q, hq2, hqk⟩
      have hlen := ih hnd.2 hkrest
      rw [if_neg hpk, List.length_cons, List.length_cons]
      omega

theorem jsMapSet_of_not_has {m : EntryList K V} {key : K} (h : jsMapHas m key = false)
    (holder : ValueHolder V) : jsMapSet m key holder = m ++ [(key, holder)] := by
  simp [jsMapSet, h]

theorem jsMapGet_append_single_ne (L : EntryList K V) {k2 key : K}
    (h : k2 ≠ key) (holder : ValueHolder V) :
    jsMapGet (L ++ [(key, holder)]) k2 = jsMapGet L k2 := by
  simp only [jsMapGet, List.find?_append]
  have : List.find? (fun p => decide (p.1 = k2)) [(key, holder)] = none := by
    simp [List.find?, Ne.symm h]
  rw [this, Option.or_none]

theorem jsMapGet_append_single_self {L : EntryList K V} {key : K}
    (h : jsMapGet L key = none) (holder : ValueHolder V) :
    jsMapGet (L ++ [(key, holder)]) key = some holder := by
  simp only [jsMapGet, Option.map_eq_none'] at h
  simp [jsMapGet, List.find?_append, h, List.find?]

end MapLemmas

/-! ### Case analyses of the cache operations -/

section CacheLemmas

variable {K V : Type} [DecidableEq K]

theorem getExpiringEntry_of_none {c : FIFOCache K V} {key : K} (now : ℚ)
    (h : jsMapGet c._cache key = none) :
    c.getExpiringEntry now key = (c, none) := by
  simp [FIFOCache.getExpiringEntry, h]

theorem getExpiringEntry_of_stale {c : FIFOCache K V} {key : K} {now : ℚ}
    {entry : ValueHolder V} (h : jsMapGet c._cache key = some entry)
    (hs : entry.expirationTimestamp ≤ now) :
    c.getExpiringEntry now key =
      ({ c with _cache := jsMapDelete c._cache key }, none) := by
  simp [FIFOCache.getExpiringEntry, h, hs]

theorem getExpiringEntry_of_fresh {c : FIFOCache K V} {key : K} {now : ℚ}
    {entry : ValueHolder V} (h : jsMapGet c._cache key = some entry)
    (hf : now < entry.expirationTimestamp) :
    c.getExpiringEntry now key = (c, some entry) := by
  simp [FIFOCache.getExpiringEntry, h, not_le.mpr hf]

theorem get_eq_getExpiringEntry (c : FIFOCache K V) (now : ℚ) (key : K) :
    c.get now key =
      ((c.getExpiringEntry now key).1,
        (c.getExpiringEntry now key).2.map ValueHolder.value) :=
  rfl

theorem has_eq_getExpiringEntry (c : FIFOCache K V) (now : ℚ) (key : K) :
    c.has now key =
      ((c.getExpiringEntry now key).1, (c.getExpiringEntry now key).2.isSome) :=
  rfl

theorem getExpiringEntry_fst_cases (c : FIFOCache K V) (now : ℚ) (key : K) :
    (c.getExpiringEntry now key).1 = c ∨
      (c.getExpiringEntry now key).1 = { c with _cache := jsMapDelete c._cache key } := by
  unfold FIFOCache.getExpiringEntry
  cases h : jsMapGet c._cache key with
  | none => left; rfl
  | some entry =>
    by_cases hs : now ≥ entry.expirationTimestamp
    · right; simp [hs]
    · left; simp [hs]

theorem set_exists_cache (c : FIFOCache K V) (now : ℚ) (key : K) (v : V) :
    ∃ L, c.set now key v = { c with _cache := L } := by
  simp only [FIFOCache.set]
  split
  · split
    · exact ⟨_, rfl⟩
    · exact ⟨_, rfl⟩
  · exact ⟨_, rfl⟩

theorem set_config (c : FIFOCache K V) (now : ℚ) (key : K) (v : V) :
    (c.set now key v)._capacity = c._capacity ∧ (c.set now key v)._ttlMs = c._ttlMs := by
  rcases set_exists_cache c now key v with ⟨L, hL⟩
  rw [hL]
  exact ⟨rfl, rfl⟩

theorem applyOp_exists_cache (c : FIFOCache K V) (op : CacheOp K V) :
    ∃ L, applyOp c op = { c with _cache := L } := by
  cases op with
  | set now key v => exact set_exists_cache c now key v
  | get now key =>
    rcases getExpiringEntry_fst_cases c now key with h | h
    · exact ⟨c._cache, by simp [applyOp, get_eq_getExpiringEntry, h]⟩
    · refine ⟨jsMapDelete c._cache key, ?_⟩
      simp [applyOp, get_eq_getExpiringEntry, h]
  | has now key =>
    rcases getExpiringEntry_fst_cases c now key with h | h
    · exact ⟨c._cache, by simp [applyOp, has_eq_getExpiringEntry, h]⟩
    · refine ⟨jsMapDelete c._cache key, ?_⟩
      simp [applyOp, has_eq_getExpiringEntry, h]
  | delete key => exact ⟨_, rfl⟩
  | clear => exact ⟨_, rfl⟩

theorem applyOp_config (c : FIFOCache K V) (op : CacheOp K V) :
    (applyOp c op)._capacity = c._capacity ∧ (applyOp c op)._ttlMs = c._ttlMs := by
  rcases applyOp_exists_cache c op with ⟨L, hL⟩
  rw [hL]
  exact ⟨rfl, rfl⟩

/-- If the store after delete-and-reinsert still fits the capacity, `set` does
not take the eviction branch: the new entry is simply appended. -/
theorem set_cache_of_le {c : FIFOCache K V} {key : K} (now : ℚ) (v : V)
    (h : ((jsMapDelete c._cache key).length : ℚ) + 1 ≤ c._capacity) :
    (c.set now key v)._cache =
      jsMapDelete c._cache key ++ [(key, ⟨v, now + c._ttlMs⟩)] := by
  have happ := jsMapSet_of_not_has (jsMapHas_jsMapDelete_self c._cache key)
    (⟨v, now + c._ttlMs⟩ : ValueHolder V)
  simp only [FIFOCache.set]
  rw [happ, if_neg]
  rw [not_lt]
  push_cast [List.length_append, List.length_singleton]
  linarith

/-- A `set` of a fresh key on an exactly-full cache evicts precisely the head
of the insertion order and appends the new entry. -/
theorem set_cache_full_fresh {c : FIFOCache K V} {key : K} (now : ℚ) (v : V)
    (hWF : WF c) (hnot : key ∉ storedKeys c)
    (hfull : (c._cache.length : ℚ) = c._capacity) (hpos : 0 < c._capacity) :
    (c.set now key v)._cache = c._cache.tail ++ [(key, ⟨v, now + c._ttlMs⟩)] := by
  have hdel : jsMapDelete c._cache key = c._cache := jsMapDelete_of_not_mem hnot
  have hlenpos : c._cache ≠ [] := by
    intro hnil
    rw [hnil] at hfull
    simp at hfull
    rw [← hfull] at hpos
    exact lt_irrefl 0 hpos
  obtain ⟨hd, tl, hcons⟩ := List.exists_cons_of_ne_nil hlenpos
  have hhd_mem : hd.1 ∈ storedKeys c := by
    rw [storedKeys, hcons]
    exact List.mem_cons_self _ _
  have hhd_ne : ¬ key = hd.1 := fun hc => hnot (hc ▸ hhd_mem)
  have hhd_tl : hd.1 ∉ tl.map Prod.fst := by
    have := hWF
    rw [WF, storedKeys, hcons, List.map_cons, List.nodup_cons] at this
    exact this.1
  have hcond : ((c._cache ++ [((key : K), (⟨v, now + c._ttlMs⟩ : ValueHolder V))]).length : ℚ) >
      c._capacity := by
    push_cast [List.length_append, List.length_singleton]
    linarith
  simp only [FIFOCache.set]
  rw [hdel, jsMapSet_of_not_has ((jsMapHas_eq_false_iff _ _).mpr hnot) _, if_pos hcond]
  rw [hcons, List.cons_append, List.head?_cons]
  show jsMapDelete ((hd :: (tl ++ [(key, ⟨v, now + c._ttlMs⟩)])) : EntryList K V) hd.1 =
    (hd :: tl).tail ++ [(key, ⟨v, now + c._ttlMs⟩)]
  rw [jsMapDelete_cons, if_pos rfl, List.tail_cons]
  apply jsMapDelete_of_not_mem
  rw [List.map_append]
  intro hmem
  rcases List.mem_append.mp hmem with h1 | h2
  · exact hhd_tl h1
  · simp at h2
    exact hhd_ne h2.symm

end CacheLemmas

/-! ### The capacity bound is preserved by every operation -/

section StepLemmas

variable {K V : Type} [DecidableEq K]

theorem applyOp_length_le {c : FIFOCache K V} (h0 : 0 ≤ c._capacity)
    (h : (c._cache.length : ℚ) ≤ c._capacity) (op : CacheOp K V) :
    ((applyOp c op)._cache.length : ℚ) ≤ c._capacity := by
  cases op with
  | set now key v =>
    show ((c.set now key v)._cache.length : ℚ) ≤ c._capacity
    have hdel : (jsMapDelete c._cache key).length ≤ c._cache.length :=
      length_jsMapDelete_le _ _
    have happ := jsMapSet_of_not_has (jsMapHas_jsMapDelete_self c._cache key)
      (⟨v, now + c._ttlMs⟩ : ValueHolder V)
    simp only [FIFOCache.set, happ]
    by_cases hc :
        ((jsMapDelete c._cache key ++
            [(key, (⟨v, now + c._ttlMs⟩ : ValueHolder V))]).length : ℚ) >
          c._capacity
    · rw [if_pos hc]
      obtain ⟨hd, tl, hL⟩ := List.exists_cons_of_ne_nil
        (show jsMapDelete c._cache key ++
            [((key : K), (⟨v, now + c._ttlMs⟩ : ValueHolder V))] ≠ [] by simp)
      rw [hL, List.head?_cons]
      show ((jsMapDelete (hd :: tl) hd.1).length : ℚ) ≤ c._capacity
      have hlt : (jsMapDelete (hd :: tl) hd.1).length < (hd :: tl).length :=
        length_jsMapDelete_lt_of_mem (by simp)
      have hlen : (hd :: tl).length = (jsMapDelete c._cache key).length + 1 := by
        rw [← hL, List.length_append, List.length_singleton]
      have hnat : (jsMapDelete (hd :: tl) hd.1).length ≤ c._cache.length := by
        omega
      exact le_trans (by exact_mod_cast Nat.cast_le.mpr hnat) h
    · rw [if_neg hc]
      exact not_lt.mp hc
  | get now key =>
    show ((c.getExpiringEntry now key).1._cache.length : ℚ) ≤ c._capacity
    rcases getExpiringEntry_fst_cases c now key with hcase | hcase
    · rw [hcase]; exact h
    · rw [hcase]
      exact le_trans (Nat.cast_le.mpr (length_jsMapDelete_le _ _)) h
  | has now key =>
    show ((c.getExpiringEntry now key).1._cache.length : ℚ) ≤ c._capacity
    rcases getExpiringEntry_fst_cases c now key with hcase | hcase
    · rw [hcase]; exact h
    · rw [hcase]
      exact le_trans (Nat.cast_le.mpr (length_jsMapDelete_le _ _)) h
  | delete key =>
    exact le_trans (Nat.cast_le.mpr (length_jsMapDelete_le _ _)) h
  | clear =>
    simpa [applyOp, FIFOCache.clear] using h0

theorem applyOps_length_le {c : FIFOCache K V} (h0 : 0 ≤ c._capacity)
    (h : (c._cache.length : ℚ) ≤ c._capacity) (ops : List (CacheOp K V)) :
    ((applyOps c ops)._cache.length : ℚ) ≤ c._capacity := by
  induction ops generalizing c with
  | nil => exact h
  | cons op rest ih =>
    show ((applyOps (applyOp c op) rest)._cache.length : ℚ) ≤ c._capacity
    have hcap := (applyOp_config c op).1
    have h1 := applyOp_length_le h0 h op
    have h2 := ih (c := applyOp c op) (by rw [hcap]; exact h0) (by rw [hcap]; exact h1)
    rw [hcap] at h2
    exact h2

end StepLemmas

/-! ### Constructor validation -/

theorem isNaturalNumber_iff (q : ℚ) :
    isNaturalNumber q = true ↔ IsPositiveInteger q := by
  simp only [isNaturalNumber, IsPositiveInteger, Bool.and_eq_true, decide_eq_true_eq,
    ge_iff_le]
  constructor
  · rintro ⟨h1, h2⟩
    refine ⟨⌊q⌋.toNat, by omega, ?_⟩
    rw [← h2]
    have h3 : (⌊q⌋.toNat : ℤ) = ⌊q⌋ := Int.toNat_of_nonneg (by omega)
    exact_mod_cast h3.symm
  · rintro ⟨n, hn, rfl⟩
    have hfloor : ⌊(n : ℚ)⌋ = (n : ℤ) := Int.floor_natCast n
    refine ⟨?_, ?_⟩
    · rw [hfloor]; exact_mod_cast hn
    · rw [hfloor]; norm_cast

theorem one_le_of_isNaturalNumber {q : ℚ} (h : isNaturalNumber q = true) : 1 ≤ q := by
  rcases (isNaturalNumber_iff q).mp h with ⟨n, hn, rfl⟩
  exact_mod_cast hn

theorem construct_ok_elim {K V : Type} {capacity ttlMs : ℚ} {c : FIFOCache K V}
    (h : FIFOCache.construct K V capacity ttlMs = Except.ok c) :
    isNaturalNumber capacity = true ∧ isNaturalNumber ttlMs = true ∧
      c = { _capacity := capacity, _ttlMs := ttlMs, _cache := [] } := by
  by_cases h1 : isNaturalNumber capacity = true
  · by_cases h2 : isNaturalNumber ttlMs = true
    · refine ⟨h1, h2, ?_⟩
      rw [FIFOCache.construct, h1, h2] at h
      simpa using h.symm
    · exfalso
      rw [FIFOCache.construct, h1] at h
      simp [Bool.eq_false_iff.mpr h2] at h
  · exfalso
    rw [FIFOCache.construct] at h
    simp [Bool.eq_false_iff.mpr h1] at h

/-! ### Claim theorems -/

/-- C1: a key whose stored entry was written by the (most recent) `set` at
time `T` — so its expiration timestamp is `T + _ttlMs` — and that has not
since been deleted, evicted by capacity, or overwritten, is returned by `get`
at every time strictly below `T + _ttlMs`, and is absent (and pruned) for
every `get` at or after `T + _ttlMs`: the boundary instant counts as stale. -/
theorem ttl_expiration_boundary {K V : Type} [DecidableEq K]
    (c : FIFOCache K V) (key : K) (v : V) (T t : ℚ)
    (hstored : jsMapGet c._cache key = some ⟨v, T + c._ttlMs⟩) :
    (t < T + c._ttlMs → (c.get t key).2 = some v) ∧
      (T + c._ttlMs ≤ t → (c.get t key).2 = none) := by
  constructor
  · intro hlt
    rw [get_eq_getExpiringEntry, getExpiringEntry_of_fresh hstored hlt]
    rfl
  · intro hge
    rw [get_eq_getExpiringEntry, getExpiringEntry_of_stale hstored hge]
    rfl

/-- Witness for C1: with ttl 1000 and an entry set at time 500, `get` at 700
returns the value and `get` at exactly 1500 returns absent. -/
theorem ttl_expiration_boundary_witness :
    (((⟨3, 1000, [(1, ⟨10, 1500⟩)]⟩ : FIFOCache ℕ ℕ).get 700 1).2 = some 10) ∧
      (((⟨3, 1000, [(1, ⟨10, 1500⟩)]⟩ : FIFOCache ℕ ℕ).get 1500 1).2 = none) := by
  have h := ttl_expiration_boundary (⟨3, 1000, [(1, ⟨10, 1500⟩)]⟩ : FIFOCache ℕ ℕ)
    1 10 500 700 (by norm_num [jsMapGet, List.find?])
  have h2 := ttl_expiration_boundary (⟨3, 1000, [(1, ⟨10, 1500⟩)]⟩ : FIFOCache ℕ ℕ)
    1 10 500 1500 (by norm_num [jsMapGet, List.find?])
  exact ⟨h.1 (by norm_num), h2.2 (by norm_num)⟩

/-- C2: starting from any successfully constructed cache, after any sequence
of `set`/`get`/`has`/`delete`/`clear` operations the number of stored entries
is at most the configured capacity; in particular the bound holds immediately
after every `set`. -/
theorem capacity_invariant {K V : Type} [DecidableEq K] (capacity ttlMs : ℚ)
    (c0 : FIFOCache K V) (hok : FIFOCache.construct K V capacity ttlMs = Except.ok c0)
    (ops : List (CacheOp K V)) :
    ((applyOps c0 ops).size : ℚ) ≤ capacity := by
  rcases construct_ok_elim hok with ⟨h1, -, rfl⟩
  have hone := one_le_of_isNaturalNumber h1
  have h0 : (0 : ℚ) ≤ capacity := le_trans zero_le_one hone
  exact applyOps_length_le h0 (by simpa using h0) ops

/-- Witness for C2: capacity 2, three insertions of distinct keys keep the
size at most 2. -/
theorem capacity_invariant_witness :
    ((applyOps (⟨2, 5, []⟩ : FIFOCache ℕ ℕ)
        [CacheOp.set 0 1 10, CacheOp.set 0 2 20, CacheOp.set 0 3 30]).size : ℚ) ≤ 2 :=
  capacity_invariant 2 5 (⟨2, 5, []⟩ : FIFOCache ℕ ℕ)
    (by norm_num [FIFOCache.construct, isNaturalNumber])
    [CacheOp.set 0 1 10, CacheOp.set 0 2 20, CacheOp.set 0 3 30]

/-- C3: starting from a well-formed cache that is exactly full (`size` equals
the positive `capacity`, as after populating `N` distinct keys), a batch of
`set` calls with pairwise-distinct fresh keys evicts, at each call, exactly
the single oldest entry by insertion order — irrespective of expiration
timestamps — and touches no other entry: after `m` such calls the store is the
original insertion sequence extended by the `m` new entries with its first `m`
elements dropped, so the `(N+i)`-th distinct key's insertion evicts precisely
the `i`-th. -/
theorem fifo_eviction_order {K V : Type} [DecidableEq K]
    (c : FIFOCache K V) (xs : List (ℚ × K × V))
    (hWF : WF c) (hfull : (c._cache.length : ℚ) = c._capacity)
    (hpos : 0 < c._capacity)
    (hnodup : (xs.map (fun x => x.2.1)).Nodup)
    (hdisj : ∀ x ∈ xs, x.2.1 ∉ storedKeys c) :
    (setAll c xs)._cache = (c._cache ++ newEntries c._ttlMs xs).drop xs.length := by
  induction xs generalizing c with
  | nil => simp [setAll, newEntries]
  | cons x rest ih =>
    obtain ⟨now, key, v⟩ := x
    have hx : key ∉ storedKeys c := hdisj (now, key, v) (List.mem_cons_self _ _)
    have hstep := set_cache_full_fresh now v hWF hx hfull hpos
    have hcfg := set_config c now key v
    have hlenpos : c._cache ≠ [] := by
      intro hnil
      rw [hnil] at hfull
      simp at hfull
      rw [← hfull] at hpos
      exact lt_irrefl 0 hpos
    obtain ⟨hd, tl, hcons⟩ := List.exists_cons_of_ne_nil hlenpos
    have htlkeys : storedKeys (c.set now key v) = tl.map Prod.fst ++ [key] := by
      rw [storedKeys, hstep, hcons, List.tail_cons, List.map_append]
      rfl
    have hkeysc : storedKeys c = hd.1 :: tl.map Prod.fst := by
      rw [storedKeys, hcons, List.map_cons]
    have hknotl : key ∉ tl.map Prod.fst := by
      intro hk
      exact hx (by rw [hkeysc]; exact List.mem_cons_of_mem _ hk)
    have hWF1 : WF (c.set now key v) := by
      rw [WF, htlkeys]
      have h0 : (hd.1 :: tl.map Prod.fst).Nodup := by rw [← hkeysc]; exact hWF
      rcases List.nodup_cons.mp h0 with ⟨-, htl⟩
      rw [List.nodup_append]
      refine ⟨htl, List.nodup_singleton _, ?_⟩
      intro a ha hb
      rcases List.mem_singleton.mp hb with rfl
      exact hknotl ha
    have hfull1 : ((c.set now key v)._cache.length : ℚ) = (c.set now key v)._capacity := by
      rw [hstep, hcfg.1, hcons, List.tail_cons, List.length_append, List.length_singleton]
      rw [hcons, List.length_cons] at hfull
      push_cast at hfull ⊢
      linarith
    have hpos1 : 0 < (c.set now key v)._capacity := by
      rw [hcfg.1]
      exact hpos
    have hnodup1 : (rest.map (fun x => x.2.1)).Nodup := by
      rw [List.map_cons] at hnodup
      exact (List.nodup_cons.mp hnodup).2
    have hkeyrest : key ∉ rest.map (fun x => x.2.1) := by
      rw [List.map_cons] at hnodup
      exact (List.nodup_cons.mp hnodup).1
    have hdisj1 : ∀ y ∈ rest, y.2.1 ∉ storedKeys (c.set now key v) := by
      intro y hy
      rw [htlkeys]
      intro hmem
      rcases List.mem_append.mp hmem with h1 | h2
      · exact hdisj y (List.mem_cons_of_mem _ hy)
          (by rw [hkeysc]; exact List.mem_cons_of_mem _ h1)
      · have heq := List.mem_singleton.mp h2
        exact hkeyrest (heq ▸ List.mem_map.mpr ⟨y, hy, rfl⟩)
    have hih := ih (c := c.set now key v) hWF1 hfull1 hpos1 hnodup1 hdisj1
    show (setAll (c.set now key v) rest)._cache = _
    rw [hih, hcfg.2, hstep, hcons, List.tail_cons]
    show (tl ++ [(key, (⟨v, now + c._ttlMs⟩ : ValueHolder V))] ++
        newEntries c._ttlMs rest).drop rest.length =
      ((hd :: tl) ++ newEntries c._ttlMs ((now, key, v) :: rest)).drop
        (((now, key, v) :: rest).length)
    rw [List.append_assoc, List.singleton_append, List.length_cons]
    show _ = ((hd :: (tl ++ newEntries c._ttlMs ((now, key, v) :: rest)))).drop
      (rest.length + 1)
    rw [List.drop_succ_cons]
    rfl

/-- Witness for C3: a full capacity-2 cache holding keys 1 then 2; setting the
fresh keys 3 then 4 evicts exactly 1 then 2, leaving 3 and 4 in order. -/
theorem fifo_eviction_order_witness :
    (setAll (⟨2, 100, [(1, ⟨11, 100⟩), (2, ⟨22, 150⟩)]⟩ : FIFOCache ℕ ℕ)
        [(60, 3, 33), (70, 4, 44)])._cache =
      ([(1, (⟨11, 100⟩ : ValueHolder ℕ)), (2, ⟨22, 150⟩)] ++
          newEntries 100 [(60, 3, 33), (70, 4, 44)]).drop 2 := by
  have h := fifo_eviction_order (⟨2, 100, [(1, ⟨11, 100⟩), (2, ⟨22, 150⟩)]⟩ : FIFOCache ℕ ℕ)
    [(60, 3, 33), (70, 4, 44)]
    (by norm_num [WF, storedKeys])
    (by norm_num)
    (by norm_num)
    (by norm_num)
    (by norm_num [storedKeys])
  exact h

/-- C4: `has` exposes exactly `get`'s staleness-check-and-prune semantics,
returning only presence: it yields `true` precisely when the key is stored and
not stale, its resulting state is identical to `get`'s resulting state, and a
present-but-stale entry is deleted from storage. -/
theorem has_semantics {K V : Type} [DecidableEq K] (c : FIFOCache K V) (now : ℚ)
    (key : K) :
    ((c.has now key).2 = ((c.get now key).2).isSome) ∧
      ((c.has now key).1 = (c.get now key).1) ∧
      ((c.has now key).2 = true ↔
        ∃ entry, jsMapGet c._cache key = some entry ∧ now < entry.expirationTimestamp) ∧
      (∀ entry, jsMapGet c._cache key = some entry → entry.expirationTimestamp ≤ now →
        (c.has now key).1._cache = jsMapDelete c._cache key) := by
  cases hm : jsMapGet c._cache key with
  | none =>
    rw [has_eq_getExpiringEntry, get_eq_getExpiringEntry, getExpiringEntry_of_none now hm]
    refine ⟨rfl, rfl, ?_, ?_⟩
    · simp [hm]
    · intro entry hentry
      simp at hentry
  | some entry =>
    by_cases hs : entry.expirationTimestamp ≤ now
    · rw [has_eq_getExpiringEntry, get_eq_getExpiringEntry,
        getExpiringEntry_of_stale hm hs]
      refine ⟨rfl, rfl, ?_, ?_⟩
      · simp only [hm]
        constructor
        · intro hfalse
          cases hfalse
        · rintro ⟨e, he, hlt⟩
          cases he
          exact absurd hs (not_le.mpr hlt)
      · intro e he hle
        rfl
    · have hf : now < entry.expirationTimestamp := not_le.mp hs
      rw [has_eq_getExpiringEntry, get_eq_getExpiringEntry,
        getExpiringEntry_of_fresh hm hf]
      refine ⟨rfl, rfl, ?_, ?_⟩
      · simp only [hm]
        constructor
        · intro _
          exact ⟨entry, rfl, hf⟩
        · intro _
          rfl
      · intro e he hle
        injection he with he2
        rw [← he2] at hle
        exact absurd hle hs

/-- Witness for C4: probing a present-but-stale entry with `has` prunes it
from storage. -/
theorem has_semantics_witness :
    ((⟨3, 1000, [(1, ⟨10, 500⟩)]⟩ : FIFOCache ℕ ℕ).has 600 1).1._cache =
      jsMapDelete [(1, (⟨10, 500⟩ : ValueHolder ℕ))] 1 :=
  (has_semantics (⟨3, 1000, [(1, ⟨10, 500⟩)]⟩ : FIFOCache ℕ ℕ) 600 1).2.2.2
    ⟨10, 500⟩ (by norm_num [jsMapGet, List.find?]) (by norm_num)

/-- C5: re-`set`-ting a key already present in a well-formed cache within its
capacity replaces the stored value, resets its expiration to `now + ttl`,
leaves `size` unchanged, and moves the key to the youngest end of the
insertion order (the remaining entries keep their relative order; the old
position is not preserved). -/
theorem update_semantics {K V : Type} [DecidableEq K] (c : FIFOCache K V)
    (now : ℚ) (key : K) (v : V)
    (hWF : WF c) (hmem : key ∈ storedKeys c)
    (hcap : (c._cache.length : ℚ) ≤ c._capacity) :
    (c.set now key v)._cache =
        jsMapDelete c._cache key ++ [(key, ⟨v, now + c._ttlMs⟩)] ∧
      jsMapGet (c.set now key v)._cache key = some ⟨v, now + c._ttlMs⟩ ∧
      (c.set now key v).size = c.size := by
  have hlen := length_jsMapDelete_nodup (m := c._cache) hWF hmem
  have hle : ((jsMapDelete c._cache key).length : ℚ) + 1 ≤ c._capacity := by
    have hq : ((jsMapDelete c._cache key).length : ℚ) + 1 = (c._cache.length : ℚ) := by
      exact_mod_cast hlen
    linarith
  have hcache := set_cache_of_le now v hle
  refine ⟨hcache, ?_, ?_⟩
  · rw [hcache]
    exact jsMapGet_append_single_self (jsMapGet_jsMapDelete_self _ _) _
  · show (c.set now key v)._cache.length = c._cache.length
    rw [hcache, List.length_append, List.length_singleton]
    omega

/-- Witness for C5: updating key 1 in a full capacity-2 cache keeps the size
at 2. -/
theorem update_semantics_witness :
    ((⟨2, 1000, [(1, ⟨10, 500⟩), (2, ⟨20, 600⟩)]⟩ : FIFOCache ℕ ℕ).set 700 1 99).size =
      (⟨2, 1000, [(1, ⟨10, 500⟩), (2, ⟨20, 600⟩)]⟩ : FIFOCache ℕ ℕ).size :=
  (update_semantics (⟨2, 1000, [(1, ⟨10, 500⟩), (2, ⟨20, 600⟩)]⟩ : FIFOCache ℕ ℕ)
    700 1 99 (by norm_num [WF, storedKeys]) (by norm_num [storedKeys])
    (by norm_num)).2.2

/-- C6: `delete` removes the key unconditionally, never evaluating its
staleness: it returns `true` exactly when the key was stored beforehand —
including a key whose TTL has already elapsed but that has not yet been
pruned — and `false` when absent, and a subsequent `get` of that key returns
absent. -/
theorem delete_unconditional {K V : Type} [DecidableEq K] (c : FIFOCache K V)
    (key : K) (now : ℚ) :
    ((c.delete key).2 = true ↔ key ∈ storedKeys c) ∧
      (c.delete key).1._cache = jsMapDelete c._cache key ∧
      ((c.delete key).1.get now key).2 = none := by
  refine ⟨jsMapHas_iff_mem _ _, rfl, ?_⟩
  have hget : jsMapGet ((c.delete key).1)._cache key = none :=
    jsMapGet_jsMapDelete_self _ _
  rw [get_eq_getExpiringEntry, getExpiringEntry_of_none now hget]
  rfl

/-- Witness for C6: `delete` returns `true` for key 1 even though its TTL
(expiring at 500) has already elapsed by read time 600. -/
theorem delete_unconditional_witness :
    ((⟨3, 1000, [(1, ⟨10, 500⟩)]⟩ : FIFOCache ℕ ℕ).delete 1).2 = true :=
  (delete_unconditional (⟨3, 1000, [(1, ⟨10, 500⟩)]⟩ : FIFOCache ℕ ℕ) 1 600).1.mpr
    (by norm_num [storedKeys])

/-- C7: construction fails with the invalid-configuration error exactly when
`capacity` or `ttl` is not a positive integer (non-integer, zero and negative
values are rejected), succeeds exactly when both are positive integers, and
the failure is the construction's synchronous result, so no usable instance
exists on failure. -/
theorem construction_validation (K V : Type) (capacity ttlMs : ℚ) :
    ((∃ msg, FIFOCache.construct K V capacity ttlMs = Except.error msg) ↔
        ¬(IsPositiveInteger capacity ∧ IsPositiveInteger ttlMs)) ∧
      ((∃ c, FIFOCache.construct K V capacity ttlMs = Except.ok c) ↔
        (IsPositiveInteger capacity ∧ IsPositiveInteger ttlMs)) ∧
      (∀ c : FIFOCache K V, FIFOCache.construct K V capacity ttlMs = Except.ok c →
        c = { _capacity := capacity, _ttlMs := ttlMs, _cache := [] }) := by
  by_cases h1 : isNaturalNumber capacity = true
  · by_cases h2 : isNaturalNumber ttlMs = true
    · have hok : FIFOCache.construct K V capacity ttlMs =
          Except.ok { _capacity := capacity, _ttlMs := ttlMs, _cache := [] } := by
        simp [FIFOCache.construct, h1, h2]
      have hpos : IsPositiveInteger capacity ∧ IsPositiveInteger ttlMs :=
        ⟨(isNaturalNumber_iff _).mp h1, (isNaturalNumber_iff _).mp h2⟩
      refine ⟨?_, ?_, ?_⟩
      · constructor
        · rintro ⟨msg, hmsg⟩
          rw [hok] at hmsg
          cases hmsg
        · intro hnot
          exact absurd hpos hnot
      · exact ⟨fun _ => hpos, fun _ => ⟨_, hok⟩⟩
      · intro c hc
        exact (construct_ok_elim hc).2.2
    · have hb2 : isNaturalNumber ttlMs = false := Bool.eq_false_iff.mpr h2
      have herr : ∃ msg, FIFOCache.construct K V capacity ttlMs = Except.error msg :=
        ⟨"Failed to instantiate FIFOCache: _ttlMs must be a natural number",
          by simp [FIFOCache.construct, h1, hb2]⟩
      have hnpos : ¬(IsPositiveInteger capacity ∧ IsPositiveInteger ttlMs) := by
        rintro ⟨-, hq⟩
        exact h2 ((isNaturalNumber_iff _).mpr hq)
      refine ⟨⟨fun _ => hnpos, fun _ => herr⟩, ?_, ?_⟩
      · constructor
        · rintro ⟨c, hc⟩
          exact absurd ((isNaturalNumber_iff _).mp (construct_ok_elim hc).2.1)
            (fun hq => hnpos ⟨(isNaturalNumber_iff _).mp h1, hq⟩)
        · intro hps
          exact absurd hps hnpos
      · intro c hc
        exact absurd (construct_ok_elim hc).2.1 h2
  · have hb1 : isNaturalNumber capacity = false := Bool.eq_false_iff.mpr h1
    have herr : ∃ msg, FIFOCache.construct K V capacity ttlMs = Except.error msg :=
      ⟨"Failed to instantiate FIFOCache: _capacity must be a natural number",
        by simp [FIFOCache.construct, hb1]⟩
    have hnpos : ¬(IsPositiveInteger capacity ∧ IsPositiveInteger ttlMs) := by
      rintro ⟨hq, -⟩
      exact h1 ((isNaturalNumber_iff _).mpr hq)
    refine ⟨⟨fun _ => hnpos, fun _ => herr⟩, ?_, ?_⟩
    · constructor
      · rintro ⟨c, hc⟩
        exact absurd (construct_ok_elim hc).1 h1
      · intro hps
        exact absurd hps hnpos
    · intro c hc
      exact absurd (construct_ok_elim hc).1 h1

/-- Witness for C7: capacity `0` (from the specification's rejected set) is
refused with a synchronous error. -/
theorem construction_validation_witness :
    ∃ msg, FIFOCache.construct ℕ ℕ 0 60000 = Except.error msg :=
  (construction_validation ℕ ℕ 0 60000).1.mpr (by
    rintro ⟨⟨n, hn, hq⟩, -⟩
    have hzero : (n : ℚ) = 0 := hq.symm
    have hn0 : n = 0 := by exact_mod_cast hzero
    omega)

/-- C8: a `get` of a present, not-stale key returns the stored value and
leaves the entire cache state unchanged — no reordering, no TTL refresh, no
effect on any other entry. -/
theorem get_fresh_frame {K V : Type} [DecidableEq K] (c : FIFOCache K V)
    (now : ℚ) (key : K) (entry : ValueHolder V)
    (hstored : jsMapGet c._cache key = some entry)
    (hfresh : now < entry.expirationTimestamp) :
    c.get now key = (c, some entry.value) := by
  rw [get_eq_getExpiringEntry, getExpiringEntry_of_fresh hstored hfresh]
  rfl

/-- Witness for C8: a fresh read at time 700 of an entry expiring at 1500
returns the value and the identical cache. -/
theorem get_fresh_frame_witness :
    (⟨3, 1000, [(1, ⟨10, 1500⟩)]⟩ : FIFOCache ℕ ℕ).get 700 1 =
      ((⟨3, 1000, [(1, ⟨10, 1500⟩)]⟩ : FIFOCache ℕ ℕ), some 10) :=
  get_fresh_frame (⟨3, 1000, [(1, ⟨10, 1500⟩)]⟩ : FIFOCache ℕ ℕ) 700 1 ⟨10, 1500⟩
    (by norm_num [jsMapGet, List.find?]) (by norm_num)

/-- C9: `set` of an already-present key on a well-formed cache within capacity
never evicts or modifies any other key's entry, even at full capacity: the
post-insertion size stays within capacity, so the eviction branch is not
taken. -/
theorem set_existing_no_eviction {K V : Type} [DecidableEq K] (c : FIFOCache K V)
    (now : ℚ) (key : K) (v : V)
    (hWF : WF c) (hmem : key ∈ storedKeys c)
    (hcap : (c._cache.length : ℚ) ≤ c._capacity) :
    (∀ k2, k2 ≠ key →
        jsMapGet (c.set now key v)._cache k2 = jsMapGet c._cache k2) ∧
      ((c.set now key v)._cache.length : ℚ) ≤ c._capacity := by
  have hlen := length_jsMapDelete_nodup (m := c._cache) hWF hmem
  have hq : ((jsMapDelete c._cache key).length : ℚ) + 1 = (c._cache.length : ℚ) := by
    exact_mod_cast hlen
  have hle : ((jsMapDelete c._cache key).length : ℚ) + 1 ≤ c._capacity := by
    linarith
  have hcache := set_cache_of_le now v hle
  constructor
  · intro k2 hk2
    rw [hcache, jsMapGet_append_single_ne _ hk2, jsMapGet_jsMapDelete_ne _ hk2]
  · rw [hcache, List.length_append, List.length_singleton]
    push_cast
    linarith

/-- Witness for C9: updating key 1 in a full capacity-2 cache leaves key 2's
entry untouched. -/
theorem set_existing_no_eviction_witness :
    jsMapGet ((⟨2, 1000, [(1, ⟨10, 500⟩), (2, ⟨20, 600⟩)]⟩ : FIFOCache ℕ ℕ).set
        700 1 99)._cache 2 =
      jsMapGet [(1, (⟨10, 500⟩ : ValueHolder ℕ)), (2, ⟨20, 600⟩)] 2 :=
  (set_existing_no_eviction (⟨2, 1000, [(1, ⟨10, 500⟩), (2, ⟨20, 600⟩)]⟩ : FIFOCache ℕ ℕ)
    700 1 99 (by norm_num [WF, storedKeys]) (by norm_num [storedKeys])
    (by norm_num)).1 2 (by norm_num)

/-- C10: a `get` that returns absent touches at most the queried key itself:
if the key was absent the state is completely unchanged, and if it was
present (necessarily stale) exactly that entry is removed, all other entries
keeping their values, expirations and insertion-order positions. -/
theorem get_absent_frame {K V : Type} [DecidableEq K] (c : FIFOCache K V)
    (now : ℚ) (key : K) (habsent : (c.get now key).2 = none) :
    (∀ k2, k2 ≠ key →
        jsMapGet ((c.get now key).1)._cache k2 = jsMapGet c._cache k2) ∧
      (jsMapGet c._cache key = none → (c.get now key).1 = c) ∧
      (∀ entry, jsMapGet c._cache key = some entry →
        entry.expirationTimestamp ≤ now ∧
          (c.get now key).1._cache = jsMapDelete c._cache key) := by
  cases hm : jsMapGet c._cache key with
  | none =>
    rw [get_eq_getExpiringEntry, getExpiringEntry_of_none now hm]
    refine ⟨fun k2 _ => rfl, fun _ => rfl, ?_⟩
    intro entry hentry
    simp at hentry
  | some entry =>
    by_cases hs : entry.expirationTimestamp ≤ now
    · rw [get_eq_getExpiringEntry, getExpiringEntry_of_stale hm hs]
      refine ⟨?_, ?_, ?_⟩
      · intro k2 hk2
        exact jsMapGet_jsMapDelete_ne _ hk2
      · intro hnone
        simp at hnone
      · intro e he
        injection he with he2
        exact ⟨he2 ▸ hs, rfl⟩
    · have hf : now < entry.expirationTimestamp := not_le.mp hs
      rw [get_eq_getExpiringEntry, getExpiringEntry_of_fresh hm hf] at habsent
      simp at habsent

/-- Witness for C10: a `get` of the stale key 1 at time 600 removes exactly
that entry. -/
theorem get_absent_frame_witness :
    ((⟨3, 1000, [(1, ⟨10, 500⟩), (2, ⟨20, 9999⟩)]⟩ : FIFOCache ℕ ℕ).get 600 1).1._cache =
      jsMapDelete [(1, (⟨10, 500⟩ : ValueHolder ℕ)), (2, ⟨20, 9999⟩)] 1 :=
  ((get_absent_frame (⟨3, 1000, [(1, ⟨10, 500⟩), (2, ⟨20, 9999⟩)]⟩ : FIFOCache ℕ ℕ)
      600 1
      (by norm_num [FIFOCache.get, FIFOCache.getExpiringEntry, jsMapGet, List.find?])).2.2
    ⟨10, 500⟩ (by norm_num [jsMapGet, List.find?])).2

end FifoTtlCache
